import Mathlib

/-!
Verification of the ONNX Rustime repository (an ONNX model-inference runtime
with a CLI front end).  The files under `src/` of the repository provide the
CLI glue (`main.rs`), the interactive menu and display layer (`display.rs`)
and the image pre-processing pipeline (`pre_processing.rs`); the core
components (error taxonomy, tensor codec, parser, graph executor, operator
registry, classification helper) are described by the design specification
and are embedded here from the specification text where their sources are
not available.
-/

namespace Onnx

/-- Modelled from the spec: the shared error taxonomy (§7).  The runtime's
error type with the five failure kinds; `MissingInput` and `UnknownOp` carry
the failing node's position, operator tag and involved name so that executor
failures are diagnosable. -/
inductive OnnxError where
  | Io
  | Decode
  | UnknownOp (pos : Nat) (op : String)
  | MissingInput (pos : Nat) (op : String) (nm : String)
  | ShapeMismatch
  deriving DecidableEq

/-- Modelled from the spec: the supported element types of the tensor codec
(§4.2, "maps the element-type tag to the matching typed buffer").  The tags
follow the published ONNX wire schema (§6). -/
inductive ElemType where
  | f32
  | u8e
  | i8e
  | i32e
  | i64e
  | f64
  deriving DecidableEq

/-- Byte width of one element of each supported element type. -/
def elemSize : ElemType → Nat
  | .f32 => 4
  | .u8e => 1
  | .i8e => 1
  | .i32e => 4
  | .i64e => 8
  | .f64 => 8

/-- Modelled from the spec: decoding of the wire element-type tag; tags not
in the supported set are rejected with `Decode` (§4.2). -/
def tagToElem : Nat → Option ElemType
  | 1 => some .f32
  | 2 => some .u8e
  | 3 => some .i8e
  | 6 => some .i32e
  | 7 => some .i64e
  | 11 => some .f64
  | _ => none

/-- The wire tag written for each supported element type. -/
def elemToTag : ElemType → Nat
  | .f32 => 1
  | .u8e => 2
  | .i8e => 3
  | .i32e => 6
  | .i64e => 7
  | .f64 => 11

/-- Modelled from the spec: the wire representation of a tensor (§3, §4.2):
a name, an element-type tag, a shape and a raw byte buffer. -/
structure WireTensor where
  wname : String
  tag : Nat
  dims : List Nat
  raw : List Nat
  deriving DecidableEq

/-- Modelled from the spec: the in-memory tensor (§3): an element-type tag,
a shape, and a flat element buffer whose length must equal the product of
the shape.  Each element is kept as its byte group (the bit pattern of the
typed value), which is in bijection with the typed value. -/
structure Tensor where
  dtype : ElemType
  dims : List Nat
  data : List (List Nat)
  deriving DecidableEq

/-- Split a byte buffer into `n` consecutive groups of `k` bytes. -/
def chunkN : Nat → Nat → List Nat → List (List Nat)
  | 0, _, _ => []
  | n + 1, k, l => l.take k :: chunkN n k (l.drop k)

/-- Modelled from the spec: `decode(wire_tensor) -> Tensor` (§4.2): maps the
element-type tag to the matching typed buffer, validates
`len(buffer) == product(shape) * element_size`; `Decode` on mismatch or
unsupported type. -/
def decode (w : WireTensor) : Except OnnxError Tensor :=
  match tagToElem w.tag with
  | none => .error .Decode
  | some ty =>
    if w.raw.length = w.dims.prod * elemSize ty then
      .ok ⟨ty, w.dims, chunkN w.dims.prod (elemSize ty) w.raw⟩
    else
      .error .Decode

/-- Modelled from the spec: `encode(Tensor, name) -> wire_tensor` (§4.2),
the inverse mapping of `decode`. -/
def encode (t : Tensor) (nm : String) : WireTensor :=
  ⟨nm, elemToTag t.dtype, t.dims, t.data.flatten⟩

theorem tagToElem_elemToTag (n : Nat) (ty : ElemType)
    (h : tagToElem n = some ty) : elemToTag ty = n := by
  unfold tagToElem at h
  split at h <;> simp_all <;> subst h <;> rfl

theorem elemToTag_tagToElem (ty : ElemType) : tagToElem (elemToTag ty) = some ty := by
  cases ty <;> rfl

theorem join_chunkN (k : Nat) :
    ∀ (n : Nat) (l : List Nat), (chunkN n k l).flatten = l.take (n * k) := by
  intro n
  induction n with
  | zero => intro l; simp [chunkN]
  | succ m ih =>
      intro l
      simp only [chunkN, List.flatten_cons, ih (l.drop k)]
      rw [Nat.succ_mul, Nat.add_comm (m * k) k, List.take_add]

theorem chunkN_join (k : Nat) :
    ∀ (gs : List (List Nat)), (∀ g ∈ gs, g.length = k) →
      chunkN gs.length k gs.flatten = gs := by
  intro gs
  induction gs with
  | nil => intro _; rfl
  | cons g rest ih =>
      intro h
      have hg : g.length = k := h g (List.mem_cons_self g rest)
      simp only [List.length_cons, chunkN, List.flatten_cons]
      rw [← hg, List.take_left, List.drop_left, hg,
        ih (fun x hx => h x (List.mem_cons_of_mem g hx))]

theorem length_join_of_uniform (k : Nat) :
    ∀ (gs : List (List Nat)), (∀ g ∈ gs, g.length = k) →
      gs.flatten.length = gs.length * k := by
  intro gs
  induction gs with
  | nil => intro _; simp
  | cons g rest ih =>
      intro h
      simp only [List.flatten_cons, List.length_append, List.length_cons]
      rw [h g (List.mem_cons_self g rest),
        ih (fun x hx => h x (List.mem_cons_of_mem g hx)), Nat.succ_mul,
        Nat.add_comm]

/-- C5: for every supported element type and every well-formed tensor `t` of
rank 0 through 4, `decode (encode t nm) = t`, and for every well-formed wire
tensor `w` (supported tag, buffer length matching the shape product, rank at
most 4), decoding followed by re-encoding under the same name reproduces `w`
exactly. -/
theorem codec_round_trip (t : Tensor) (nm : String) (w : WireTensor) (ty : ElemType)
    (ht1 : t.data.length = t.dims.prod)
    (ht2 : ∀ g ∈ t.data, g.length = elemSize t.dtype)
    (ht3 : t.dims.length ≤ 4)
    (hw1 : tagToElem w.tag = some ty)
    (hw2 : w.raw.length = w.dims.prod * elemSize ty)
    (hw3 : w.dims.length ≤ 4) :
    decode (encode t nm) = .ok t ∧
      (decode w).map (fun u => encode u w.wname) = .ok w := by
  constructor
  · show decode ⟨nm, elemToTag t.dtype, t.dims, t.data.flatten⟩ = .ok t
    unfold decode
    simp only [elemToTag_tagToElem]
    have hlen : t.data.flatten.length = t.dims.prod * elemSize t.dtype := by
      rw [length_join_of_uniform (elemSize t.dtype) t.data ht2, ht1]
    rw [if_pos hlen]
    have hchunk : chunkN t.dims.prod (elemSize t.dtype) t.data.flatten = t.data := by
      rw [← ht1]
      exact chunkN_join (elemSize t.dtype) t.data ht2
    simp only [hchunk]
  · simp only [decode, hw1]
    rw [if_pos hw2]
    simp only [Except.map, encode]
    rw [tagToElem_elemToTag w.tag ty hw1, join_chunkN, ← hw2, List.take_length]

theorem codec_round_trip_witness :
    decode (encode ⟨.f32, [2], [[0, 0, 0, 0], [1, 0, 0, 0]]⟩ "x") =
        .ok ⟨.f32, [2], [[0, 0, 0, 0], [1, 0, 0, 0]]⟩ ∧
      (decode ⟨"y", 7, [1], [5, 0, 0, 0, 0, 0, 0, 0]⟩).map
          (fun u => encode u "y") =
        .ok ⟨"y", 7, [1], [5, 0, 0, 0, 0, 0, 0, 0]⟩ :=
  codec_round_trip ⟨.f32, [2], [[0, 0, 0, 0], [1, 0, 0, 0]]⟩ "x"
    ⟨"y", 7, [1], [5, 0, 0, 0, 0, 0, 0, 0]⟩ .i64e
    (by decide) (by decide) (by decide) (by decide) (by decide) (by decide)

/-- Modelled from the spec: a typed node attribute value (§3): a tagged
union of integer, float, string, tensor, or list of these.  Float values are
carried as their raw 32-bit patterns. -/
inductive AttrValue where
  | intA (i : Int)
  | fltA (bits : Nat)
  | strA (s : String)
  | tensorA (t : Tensor)
  | intsA (l : List Int)
  | fltsA (l : List Nat)
  | strsA (l : List String)
  | tensorsA (l : List Tensor)
  deriving DecidableEq

/-- Modelled from the spec: a graph node (§3): an operator-type tag, ordered
input and output tensor name lists, and named typed attributes. -/
structure Node where
  op : String
  inputs : List String
  outputs : List String
  attrs : List (String × AttrValue)

/-- Modelled from the spec: a parsed model (§3): an ordered node sequence, a
set of named initializer tensors (`inits`), and the declared primary input
and output names.  Immutable once parsed. -/
structure Model where
  nodes : List Node
  inits : List (String × Tensor)
  inputName : String
  outputName : String

/-- Modelled from the spec: an operator kernel (§4.4): a pure map from the
ordered resolved input tensors and the node's attributes to output tensors,
or a kernel-level error such as `ShapeMismatch`. -/
abbrev Kernel := List Tensor → List (String × AttrValue) → Except OnnxError (List Tensor)

/-- Name lookup in the per-run Environment (§3), newest binding first. -/
def lookupEnv : List (String × Tensor) → String → Option Tensor
  | [], _ => none
  | (k, v) :: rest, nm => if k = nm then some v else lookupEnv rest nm

/-- Resolve every input name of a node in the Environment, failing with the
first name that is absent (§4.3 step 4). -/
def resolveAll (env : List (String × Tensor)) : List String → Except String (List Tensor)
  | [] => .ok []
  | nm :: rest =>
    match lookupEnv env nm with
    | none => .error nm
    | some t =>
      match resolveAll env rest with
      | .error m => .error m
      | .ok ts => .ok (t :: ts)

/-- Bind each declared output name to its resulting tensor, overwriting any
existing binding for that name (§4.3 step 4). -/
def bindOutputs : List (String × Tensor) → List String → List Tensor → List (String × Tensor)
  | env, [], _ => env
  | env, _ :: _, [] => env
  | env, nm :: nms, t :: ts => bindOutputs ((nm, t) :: env) nms ts

/-- Modelled from the spec: the node-execution loop of the Graph Executor
(§4.3 steps 3–4), instrumented with the list of node positions whose kernel
was actually invoked.  Nodes run strictly in the model's recorded order; any
failure aborts the loop immediately. -/
def runNodesT (reg : String → Option Kernel) :
    List Node → Nat → List (String × Tensor) →
      List Nat × Except OnnxError (List (String × Tensor))
  | [], _, env => ([], .ok env)
  | n :: rest, pos, env =>
    match resolveAll env n.inputs with
    | .error nm => ([], .error (.MissingInput pos n.op nm))
    | .ok ins =>
      match reg n.op with
      | none => ([], .error (.UnknownOp pos n.op))
      | some k =>
        match k ins n.attrs with
        | .error e => ([], .error e)
        | .ok outs =>
          let r := runNodesT reg rest (pos + 1) (bindOutputs env n.outputs outs)
          (pos :: r.1, r.2)

/-- The Environment seeded with the model's initializers and the
caller-supplied input bound to the declared primary input name, the input
binding shadowing an initializer of the same name (§4.3 steps 1–2). -/
def initialEnv (m : Model) (input : Tensor) : List (String × Tensor) :=
  (m.inputName, input) :: m.inits

/-- Modelled from the spec: `run(model, input) -> Tensor` (§4.3): seed the
Environment, execute the nodes in recorded order, and return the tensor
bound to the declared output name (`MissingInput` if never produced). -/
def run (reg : String → Option Kernel) (m : Model) (input : Tensor) :
    Except OnnxError Tensor :=
  match (runNodesT reg m.nodes 0 (initialEnv m input)).2 with
  | .error e => .error e
  | .ok env =>
    match lookupEnv env m.outputName with
    | some t => .ok t
    | none => .error (.MissingInput m.nodes.length "output" m.outputName)

/-- The positions of the nodes whose kernels were invoked during a run. -/
def executedNodes (reg : String → Option Kernel) (m : Model) (input : Tensor) :
    List Nat :=
  (runNodesT reg m.nodes 0 (initialEnv m input)).1

theorem lookupEnv_bindOutputs (nm : String) :
    ∀ (nms : List String) (env : List (String × Tensor)) (ts : List Tensor),
      nm ∉ nms → lookupEnv (bindOutputs env nms ts) nm = lookupEnv env nm := by
  intro nms
  induction nms with
  | nil => intro env ts _; rfl
  | cons n' rest ih =>
      intro env ts hnot
      cases ts with
      | nil => rfl
      | cons t ts' =>
          have hne : n' ≠ nm := fun h => hnot (h ▸ List.mem_cons_self n' rest)
          have hrest : nm ∉ rest := fun h => hnot (List.mem_cons_of_mem n' h)
          simp only [bindOutputs, ih ((n', t) :: env) ts' hrest, lookupEnv,
            if_neg hne]

theorem resolveAll_error_of_missing (env : List (String × Tensor)) :
    ∀ (names : List String) (nm : String), nm ∈ names → lookupEnv env nm = none →
      ∃ m', resolveAll env names = .error m' := by
  intro names
  induction names with
  | nil => intro nm h; exact absurd h (List.not_mem_nil nm)
  | cons n' rest ih =>
      intro nm hmem hnone
      rcases List.mem_cons.mp hmem with h | h
      · subst h
        exact ⟨nm, by simp only [resolveAll, hnone]⟩
      · match hl : lookupEnv env n' with
        | none => exact ⟨n', by simp only [resolveAll, hl]⟩
        | some t =>
            obtain ⟨m', hm'⟩ := ih nm h hnone
            exact ⟨m', by simp only [resolveAll, hl, hm']⟩

/-- C1: for every model whose second node references an input name produced
by no earlier node — and that is neither the graph input nor an initializer
— once the first node has executed, `run` returns a `MissingInput` error to
its caller (positioned at the second node, carrying its operator tag), and
the whole run aborts with no partial execution: only the first node's kernel
was ever invoked. -/
theorem run_missing_input (reg : String → Option Kernel) (m : Model) (input : Tensor)
    (n0 n1 : Node) (rest : List Node) (missing : String)
    (ins0 outs0 : List Tensor) (k0 : Kernel)
    (hnodes : m.nodes = n0 :: n1 :: rest)
    (hres0 : resolveAll (initialEnv m input) n0.inputs = .ok ins0)
    (hk0 : reg n0.op = some k0)
    (hout0 : k0 ins0 n0.attrs = .ok outs0)
    (hmem : missing ∈ n1.inputs)
    (hnotout : missing ∉ n0.outputs)
    (hnotin : missing ≠ m.inputName)
    (hnotinit : lookupEnv m.inits missing = none) :
    (∃ nm, run reg m input = .error (.MissingInput 1 n1.op nm)) ∧
      executedNodes reg m input = [0] := by
  have henv1 : lookupEnv (initialEnv m input) missing = none := by
    simp only [initialEnv, lookupEnv, if_neg (Ne.symm hnotin), hnotinit]
  have henv2 :
      lookupEnv (bindOutputs (initialEnv m input) n0.outputs outs0) missing = none := by
    rw [lookupEnv_bindOutputs missing n0.outputs (initialEnv m input) outs0 hnotout]
    exact henv1
  obtain ⟨nm, hres1⟩ :=
    resolveAll_error_of_missing
      (bindOutputs (initialEnv m input) n0.outputs outs0) n1.inputs missing hmem henv2
  constructor
  · refine ⟨nm, ?_⟩
    unfold run
    rw [hnodes]
    simp only [runNodesT, hres0, hk0, hout0, hres1]
  · unfold executedNodes
    rw [hnodes]
    simp only [runNodesT, hres0, hk0, hout0, hres1]

/-- The identity kernel used by the concrete witnesses. -/
def idKernel : Kernel := fun ins _ => .ok ins

/-- A registry holding only the identity kernel, for the witnesses. -/
def regW : String → Option Kernel :=
  fun s => if s = "Identity" then some idKernel else none

/-- A rank-0 f32 tensor used by the witnesses. -/
def tensW : Tensor := ⟨.f32, [], [[0, 0, 0, 0]]⟩

/-- A two-node model whose second node reads the unbound name "ghost". -/
def modelW : Model :=
  ⟨[⟨"Identity", ["in"], ["mid"], []⟩, ⟨"Identity", ["ghost"], ["out"], []⟩],
    [], "in", "out"⟩

theorem run_missing_input_witness :
    (∃ nm, run regW modelW tensW = .error (.MissingInput 1 "Identity" nm)) ∧
      executedNodes regW modelW tensW = [0] :=
  run_missing_input regW modelW tensW
    ⟨"Identity", ["in"], ["mid"], []⟩ ⟨"Identity", ["ghost"], ["out"], []⟩ []
    "ghost" [tensW] [tensW] idKernel
    rfl rfl rfl rfl (by decide) (by decide) (by decide) rfl

/-- C2: the Graph Executor is pure over `(model, input)`: it is a function
of the model and the input alone (given the fixed kernel registry), so two
calls with identical model and input arguments yield bit-identical results;
the per-run Environment is constructed inside `run` and nothing else is
touched. -/
theorem run_deterministic (reg : String → Option Kernel) (m1 m2 : Model)
    (i1 i2 : Tensor) (hm : m1 = m2) (hi : i1 = i2) :
    run reg m1 i1 = run reg m2 i2 := by
  subst hm
  subst hi
  rfl

theorem run_deterministic_witness :
    run regW modelW tensW = run regW modelW tensW :=
  run_deterministic regW modelW modelW tensW tensW rfl rfl

/-- Modelled from the spec: the comparison used by the classification helper
(§4.5): higher value first, ties broken by the lower index. -/
def keyLE {α : Type} [LinearOrder α] (p q : Nat × α) : Prop :=
  q.2 < p.2 ∨ (p.2 = q.2 ∧ p.1 ≤ q.1)

instance {α : Type} [LinearOrder α] : DecidableRel (keyLE (α := α)) := fun p q => by
  unfold keyLE
  infer_instance

instance {α : Type} [LinearOrder α] : IsTotal (Nat × α) keyLE where
  total p q := by
    rcases lt_trichotomy p.2 q.2 with h | h | h
    · exact Or.inr (Or.inl h)
    · rcases Nat.le_total p.1 q.1 with h' | h'
      · exact Or.inl (Or.inr ⟨h, h'⟩)
      · exact Or.inr (Or.inr ⟨h.symm, h'⟩)
    · exact Or.inl (Or.inl h)

instance {α : Type} [LinearOrder α] : IsTrans (Nat × α) keyLE where
  trans p q r hpq hqr := by
    rcases hpq with h1 | ⟨he1, hi1⟩
    · rcases hqr with h2 | ⟨he2, _⟩
      · exact Or.inl (lt_trans h2 h1)
      · exact Or.inl (he2 ▸ h1)
    · rcases hqr with h2 | ⟨he2, hi2⟩
      · exact Or.inl (he1 ▸ h2)
      · exact Or.inr ⟨he1.trans he2, le_trans hi1 hi2⟩

/-- Pair each list element with its index, starting from `s`. -/
def enumFromN {α : Type} : Nat → List α → List (Nat × α)
  | _, [] => []
  | s, a :: l => (s, a) :: enumFromN (s + 1) l

/-- Modelled from the spec: per-row top-k extraction (§4.5): the `k`
highest-valued `(index, value)` pairs, in descending order by value, ties
broken by the lower index. -/
def topK {α : Type} [LinearOrder α] (k : Nat) (row : List α) : List (Nat × α) :=
  (List.insertionSort keyLE (enumFromN 0 row)).take k

/-- Modelled from the spec: the classification helper applied per batch row
with `k = 5` (§4.5, consumed by `display_outputs` in `display.rs`). -/
def find_top_5_peak_classes {α : Type} [LinearOrder α] (t : List (List α)) :
    List (List (Nat × α)) :=
  t.map (topK 5)

theorem length_enumFromN {α : Type} :
    ∀ (s : Nat) (l : List α), (enumFromN s l).length = l.length := by
  intro s l
  induction l generalizing s with
  | nil => rfl
  | cons a l ih => simp only [enumFromN, List.length_cons, ih]

theorem mem_enumFromN {α : Type} :
    ∀ (l : List α) (s : Nat) (p : Nat × α), p ∈ enumFromN s l →
      s ≤ p.1 ∧ p.1 < s + l.length := by
  intro l
  induction l with
  | nil => intro s p h; exact absurd h (List.not_mem_nil p)
  | cons a l ih =>
      intro s p h
      rcases List.mem_cons.mp h with h | h
      · subst h
        exact ⟨Nat.le_refl s, by simp [Nat.lt_add_of_pos_right]⟩
      · obtain ⟨h1, h2⟩ := ih (s + 1) p h
        refine ⟨Nat.le_of_succ_le h1, ?_⟩
        simp only [List.length_cons]
        omega

theorem pairwise_fst_lt_enumFromN {α : Type} :
    ∀ (l : List α) (s : Nat),
      (enumFromN s l).Pairwise (fun p q => p.1 < q.1) := by
  intro l
  induction l with
  | nil => intro s; exact List.Pairwise.nil
  | cons a l ih =>
      intro s
      refine List.Pairwise.cons ?_ (ih (s + 1))
      intro p hp
      exact Nat.lt_of_succ_le (mem_enumFromN l (s + 1) p hp).1

/-- C4: for every tensor presented as a batch of rows and every batch row,
the top-5 extraction returns exactly `min 5 num_classes` `(index, value)`
pairs, in strictly descending order by value with ties broken by the lower
index, and every returned index lies in `[0, num_classes)`. -/
theorem find_top5_law {α : Type} [LinearOrder α] (t : List (List α)) (i : Nat)
    (row : List α) (hrow : t[i]? = some row) :
    ∃ res, (find_top_5_peak_classes t)[i]? = some res ∧
      res.length = min 5 row.length ∧
      (∀ p ∈ res, p.1 < row.length) ∧
      List.Pairwise (fun p q : Nat × α => q.2 < p.2 ∨ (p.2 = q.2 ∧ p.1 < q.1)) res := by
  refine ⟨topK 5 row, ?_, ?_, ?_, ?_⟩
  · simp only [find_top_5_peak_classes, List.getElem?_map, hrow, Option.map_some']
  · simp only [topK, List.length_take, List.length_insertionSort, length_enumFromN]
  · intro p hp
    have hsort : p ∈ List.insertionSort keyLE (enumFromN 0 row) :=
      List.mem_of_mem_take hp
    have henum : p ∈ enumFromN 0 row :=
      (List.perm_insertionSort keyLE (enumFromN 0 row)).subset hsort
    have := (mem_enumFromN row 0 p henum).2
    simpa using this
  · have hsorted : List.Pairwise keyLE (List.insertionSort keyLE (enumFromN 0 row)) :=
      List.sorted_insertionSort keyLE (enumFromN 0 row)
    have hperm := List.perm_insertionSort keyLE (enumFromN 0 row)
    have hne : List.Pairwise (fun p q : Nat × α => p.1 ≠ q.1)
        (List.insertionSort keyLE (enumFromN 0 row)) := by
      refine (List.Perm.pairwise_iff (fun h => h.symm) hperm).mpr ?_
      exact (pairwise_fst_lt_enumFromN row 0).imp Nat.ne_of_lt
    have hboth := hsorted.and hne
    refine (List.Pairwise.sublist (List.take_sublist 5 _) hboth).imp ?_
    intro p q h
    rcases h with ⟨hle, hfst⟩
    rcases hle with h | ⟨he, hi'⟩
    · exact Or.inl h
    · exact Or.inr ⟨he, Nat.lt_of_le_of_ne hi' hfst⟩

theorem find_top5_law_witness :
    ∃ res, (find_top_5_peak_classes [[(1 : Int), 3, 3, 2]])[0]? = some res ∧
      res.length = min 5 [(1 : Int), 3, 3, 2].length ∧
      (∀ p ∈ res, p.1 < [(1 : Int), 3, 3, 2].length) ∧
      List.Pairwise (fun p q : Nat × Int => q.2 < p.2 ∨ (p.2 = q.2 ∧ p.1 < q.1)) res :=
  find_top5_law [[(1 : Int), 3, 3, 2]] 0 [(1 : Int), 3, 3, 2] rfl

/-- An abstract decoded RGB image (from the `image` crate used by
`pre_processing.rs`): dimensions and per-channel 8-bit pixel values,
`pix x y c` being channel `c` (0 = R, 1 = G, 2 = B) of the pixel at column
`x`, row `y`. -/
structure Image where
  width : Nat
  height : Nat
  pix : Nat → Nat → Nat → Nat

/-- The u32 modulus. -/
def u32mod : Nat := 4294967296

/-- Wrapping u32 multiplication. -/
def umul32 (a b : Nat) : Nat := (a * b) % u32mod

/-- Wrapping u32 subtraction (for operands below `2^32`). -/
def usub32 (a b : Nat) : Nat := (a + (u32mod - b)) % u32mod

/-- Model of `crop_imm` of the image crate: a cut-out delimited by the requested
rectangle, clamped to the image bounds. -/
def cropImm (img : Image) (x y cw ch : Nat) : Image :=
  ⟨min cw (img.width - min x img.width), min ch (img.height - min y img.height),
    fun a b c => img.pix (min x img.width + a) (min y img.height + b) c⟩

/-- A byte buffer given by its length and an index function. -/
structure Buf where
  len : Nat
  get : Nat → Nat

/-- Model of `to_rgb8().into_raw()`: the row-major interleaved RGB byte buffer of an
image. -/
def toRgb8Raw (img : Image) : Buf :=
  ⟨3 * img.width * img.height,
    fun idx => img.pix ((idx / 3) % img.width) ((idx / 3) / img.width) (idx % 3)⟩

/-- A two-dimensional array as dimensions plus an index function. -/
structure Arr2 (β : Type) where
  d0 : Nat
  d1 : Nat
  el : Nat → Nat → β

/-- A three-dimensional array as dimensions plus an index function. -/
structure Arr3 (β : Type) where
  d0 : Nat
  d1 : Nat
  d2 : Nat
  el : Nat → Nat → Nat → β

/-- A four-dimensional array as dimensions plus an index function. -/
structure Arr4 (β : Type) where
  d0 : Nat
  d1 : Nat
  d2 : Nat
  d3 : Nat
  el : Nat → Nat → Nat → Nat → β

/-- Model of `Array::from_shape_vec((r, c), v)`: succeeds exactly when the buffer
length matches the shape product, yielding the row-major array. -/
def fromShapeVec (r c : Nat) (v : Buf) : Option (Arr2 Nat) :=
  if v.len = r * c then some ⟨r, c, fun i j => v.get (i * c + j)⟩ else none

/-- Model of `ndarray::stack(Axis(2), [r, g, b])`: stacks three equally-shaped planes
along a new trailing axis. -/
def stackAxis2 (a b c : Arr2 Nat) : Option (Arr3 Nat) :=
  if b.d0 = a.d0 ∧ b.d1 = a.d1 ∧ c.d0 = a.d0 ∧ c.d1 = a.d1 then
    some ⟨a.d0, a.d1, 3,
      fun i j k => if k = 0 then a.el i j else if k = 1 then b.el i j else c.el i j⟩
  else none

/-- Model of `swap_axes(0, 2)`: the view with the first and last axes exchanged. -/
def swapAxes02 {β : Type} (a : Arr3 β) : Arr3 β :=
  ⟨a.d2, a.d1, a.d0, fun i j k => a.el k j i⟩

/-- Model of `mapv f`: elementwise map. -/
def mapv {β γ : Type} (f : β → γ) (a : Arr3 β) : Arr3 γ :=
  ⟨a.d0, a.d1, a.d2, fun i j k => f (a.el i j k)⟩

/-- In-place `-=` against a `(3, 1, 1)` operand: broadcast subtraction of a
per-channel constant. -/
def subChan {β : Type} (fsub : β → β → β) (a : Arr3 β) (m : Nat → β) : Arr3 β :=
  ⟨a.d0, a.d1, a.d2, fun c i j => fsub (a.el c i j) (m c)⟩

/-- In-place `/=` against a `(3, 1, 1)` operand: broadcast division by a
per-channel constant. -/
def divChan {β : Type} (fdiv : β → β → β) (a : Arr3 β) (m : Nat → β) : Arr3 β :=
  ⟨a.d0, a.d1, a.d2, fun c i j => fdiv (a.el c i j) (m c)⟩

/-- Model of `insert_axis(Axis(0))`: prepend a batch dimension of size 1. -/
def insertAxis0 {β : Type} (a : Arr3 β) : Arr4 β :=
  ⟨1, a.d0, a.d1, a.d2, fun _ c i j => a.el c i j⟩

/-- The f32 operations and literal constants used by `preprocess_image`,
kept abstract: f32 arithmetic is represented by uninterpreted operation
symbols applied exactly as the code applies them.  `m485` stands for the
f32 literal 0.485, `s229` for 0.229, `s255` for 255.0, and so on. -/
structure F32Ops (F : Type) where
  fsub : F → F → F
  fdiv : F → F → F
  fmul : F → F → F
  ofU8 : Nat → F
  m485 : F
  m456 : F
  m406 : F
  s229 : F
  s224 : F
  s225 : F
  s255 : F

/-- The per-channel mean constants as the code builds them:
`MEAN[c] * SCALE_FACTOR`. -/
def meanLit {F : Type} (o : F32Ops F) : Nat → F
  | 0 => o.fmul o.m485 o.s255
  | 1 => o.fmul o.m456 o.s255
  | _ => o.fmul o.m406 o.s255

/-- The per-channel standard-deviation constants as the code builds them:
`STD[c] * SCALE_FACTOR`. -/
def stdLit {F : Type} (o : F32Ops F) : Nat → F
  | 0 => o.fmul o.s229 o.s255
  | 1 => o.fmul o.s224 o.s255
  | _ => o.fmul o.s225 o.s255

/-- The resize bounds requested by `preprocess_image`: minimum side
`MIN_SIZE = 256` preserving the aspect ratio (u32 arithmetic). -/
def requestW (img : Image) : Nat :=
  if img.height < img.width then umul32 256 img.width / img.height else 256

/-- The requested resize height, by the same rule. -/
def requestH (img : Image) : Nat :=
  if img.height < img.width then 256 else umul32 256 img.height / img.width

/-- The resized-then-center-cropped image of `preprocess_image`, with the
resize operation of the image crate kept abstract as `resizeF`. -/
def croppedImage (resizeF : Image → Nat → Nat → Image) (img : Image) : Image :=
  cropImm (resizeF img (requestW img) (requestH img))
    (usub32 (requestW img) 224 / 2) (usub32 (requestH img) 224 / 2) 224 224

/-- The channel plane buffer `c` (0 = R, 1 = G, 2 = B) extracted from the
raw interleaved bytes of the cropped image, as the `rs`/`gs`/`bs` loop
builds it. -/
def chanBuf (resizeF : Image → Nat → Nat → Image) (img : Image) (c : Nat) : Buf :=
  ⟨(toRgb8Raw (croppedImage resizeF img)).len / 3,
    fun i => (toRgb8Raw (croppedImage resizeF img)).get (3 * i + c)⟩

/-- Model of `preprocess_image` from `pre_processing.rs`: open (abstracted away:
the image is the argument), resize to minimum side 256 preserving aspect
ratio, center-crop to 224 × 224, split the RGB planes, stack to HWC, swap
to channel-major, cast to f32 and normalize per channel.  A `none` result
models any panic of the original (a failed `unwrap`). -/
def preprocess_image {F : Type} (o : F32Ops F)
    (resizeF : Image → Nat → Nat → Image) (img : Image) : Option (Arr4 F) :=
  if img.width = 0 ∨ img.height = 0 then none
  else
    match fromShapeVec 224 224 (chanBuf resizeF img 0),
        fromShapeVec 224 224 (chanBuf resizeF img 1),
        fromShapeVec 224 224 (chanBuf resizeF img 2) with
    | some ra, some ga, some ba =>
      match stackAxis2 ra ga ba with
      | some st =>
        some (insertAxis0
          (divChan o.fdiv (subChan o.fsub (mapv o.ofU8 (swapAxes02 st)) (meanLit o))
            (stdLit o)))
      | none => none
    | _, _, _ => none

/-- The shape of a four-dimensional array. -/
def arr4Shape {β : Type} (a : Arr4 β) : List Nat := [a.d0, a.d1, a.d2, a.d3]

/-- C8: for every image that `preprocess_image` successfully opens and
decodes (and for which it returns at all rather than panicking), the
returned array has shape exactly `[1, 3, 224, 224]` — a leading batch
dimension of 1 and three channels in channel-major layout — regardless of
the source image's original width and height. -/
theorem preprocess_image_shape {F : Type} (o : F32Ops F)
    (resizeF : Image → Nat → Nat → Image) (img : Image) (a : Arr4 F)
    (h : preprocess_image o resizeF img = some a) :
    arr4Shape a = [1, 3, 224, 224] := by
  unfold preprocess_image at h
  split at h
  · exact absurd h (by simp)
  · split at h
    · rename_i ra ga ba hra hga hba
      split at h
      · rename_i st hst
        have ha := Option.some.inj h
        subst ha
        unfold fromShapeVec at hra
        split at hra
        · have hra' := Option.some.inj hra
          unfold stackAxis2 at hst
          split at hst
          · have hst' := Option.some.inj hst
            subst hst'
            simp only [arr4Shape, insertAxis0, divChan, subChan, mapv, swapAxes02,
              ← hra']
          · exact absurd hst (by simp)
        · exact absurd hra (by simp)
      · exact absurd h (by simp)
    · exact absurd h (by simp)

/-- The concrete resize model used by the pre-processing witnesses: an
image of exactly the requested dimensions carrying the source pixels. -/
def resizeExact : Image → Nat → Nat → Image :=
  fun im nw nh => ⟨nw, nh, im.pix⟩

/-- A concrete 256 × 256 image with constant pixel value 7. -/
def imgW : Image := ⟨256, 256, fun _ _ _ => 7⟩

/-- Integer-valued stand-ins for the f32 operations, for the witnesses. -/
def intOps : F32Ops Int :=
  ⟨Int.sub, Int.tdiv, Int.mul, Int.ofNat, 485, 456, 406, 229, 224, 225, 255⟩

theorem preprocess_image_shape_witness :
    (preprocess_image intOps resizeExact imgW).map arr4Shape =
      some [1, 3, 224, 224] := by
  obtain ⟨a, ha⟩ : ∃ a, preprocess_image intOps resizeExact imgW = some a := ⟨_, rfl⟩
  rw [ha, Option.map_some']
  exact congrArg some (preprocess_image_shape intOps resizeExact imgW a ha)

theorem chanBuf_len (resizeF : Image → Nat → Nat → Image) (img : Image) (c : Nat) :
    (chanBuf resizeF img c).len =
      (croppedImage resizeF img).width * (croppedImage resizeF img).height := by
  simp only [chanBuf, toRgb8Raw]
  rw [Nat.mul_assoc]
  exact Nat.mul_div_cancel_left _ (by norm_num)

theorem cropped_width_le (resizeF : Image → Nat → Nat → Image) (img : Image) :
    (croppedImage resizeF img).width ≤ 224 := by
  simp only [croppedImage, cropImm]
  exact Nat.min_le_left _ _

theorem cropped_height_le (resizeF : Image → Nat → Nat → Image) (img : Image) :
    (croppedImage resizeF img).height ≤ 224 := by
  simp only [croppedImage, cropImm]
  exact Nat.min_le_left _ _

theorem cropped_dims (resizeF : Image → Nat → Nat → Image) (img : Image)
    (hlen : (chanBuf resizeF img 0).len = 224 * 224) :
    (croppedImage resizeF img).width = 224 ∧
      (croppedImage resizeF img).height = 224 := by
  have hcb := chanBuf_len resizeF img 0
  rw [hlen] at hcb
  have hw := cropped_width_le resizeF img
  have hh := cropped_height_le resizeF img
  constructor
  · by_contra hne
    have h1 : (croppedImage resizeF img).width ≤ 223 := by omega
    have h2 := Nat.mul_le_mul h1 hh
    rw [← hcb] at h2
    norm_num at h2
  · by_contra hne
    have h1 : (croppedImage resizeF img).height ≤ 223 := by omega
    have h2 := Nat.mul_le_mul hw h1
    rw [← hcb] at h2
    norm_num at h2

theorem chanBuf_get (resizeF : Image → Nat → Nat → Image) (img : Image)
    (c i j : Nat) (hc : c < 3) (hi : i < 224)
    (hw : (croppedImage resizeF img).width = 224) :
    (chanBuf resizeF img c).get (j * 224 + i) =
      (croppedImage resizeF img).pix i j c := by
  simp only [chanBuf, toRgb8Raw, hw]
  have e1 : (3 * (j * 224 + i) + c) / 3 = j * 224 + i := by omega
  have e2 : (j * 224 + i) % 224 = i := by omega
  have e3 : (j * 224 + i) / 224 = j := by omega
  have e4 : (3 * (j * 224 + i) + c) % 3 = c := by omega
  rw [e1, e2, e3, e4]

/-- C9: every element of `preprocess_image`'s output at batch 0, channel
`c` and spatial position `(i, j)` equals `(p − m_c·255) / (s_c·255)` in the
code's f32 arithmetic, where `p` is the corresponding 8-bit pixel value of
the resized and center-cropped RGB image cast to f32, and `m_c`, `s_c` are
the literals 0.485/0.456/0.406 and 0.229/0.224/0.225 for the R, G, B
channels.  The f32 operations and literals are held abstract, so the
equation holds for the operations exactly as the code applies them. -/
theorem preprocess_image_values {F : Type} (o : F32Ops F)
    (resizeF : Image → Nat → Nat → Image) (img : Image) (a : Arr4 F)
    (h : preprocess_image o resizeF img = some a)
    (c i j : Nat) (hc : c < 3) (hi : i < 224) (hj : j < 224) :
    a.el 0 c i j =
      o.fdiv
        (o.fsub (o.ofU8 ((croppedImage resizeF img).pix i j c)) (meanLit o c))
        (stdLit o c) := by
  unfold preprocess_image at h
  split at h
  · exact absurd h (by simp)
  · split at h
    · rename_i ra ga ba hra hga hba
      split at h
      · rename_i st hst
        have ha := Option.some.inj h
        subst ha
        unfold fromShapeVec at hra hga hba
        split at hra
        · rename_i hlenR
          have hra' := Option.some.inj hra
          split at hga
          · rename_i hlenG
            have hga' := Option.some.inj hga
            split at hba
            · rename_i hlenB
              have hba' := Option.some.inj hba
              unfold stackAxis2 at hst
              split at hst
              · have hst' := Option.some.inj hst
                subst hst'
                obtain ⟨hw, _⟩ := cropped_dims resizeF img hlenR
                simp only [insertAxis0, divChan, subChan, mapv, swapAxes02,
                  ← hra', ← hga', ← hba']
                rcases c with _ | c
                · rw [if_pos rfl,
                    chanBuf_get resizeF img 0 i j (by norm_num) hi hw]
                · rcases c with _ | c
                  · rw [if_neg (by norm_num), if_pos rfl,
                      chanBuf_get resizeF img 1 i j (by norm_num) hi hw]
                  · rcases c with _ | c
                    · rw [if_neg (by norm_num), if_neg (by norm_num),
                        chanBuf_get resizeF img 2 i j (by norm_num) hi hw]
                    · omega
              · exact absurd hst (by simp)
            · exact absurd hba (by simp)
          · exact absurd hga (by simp)
        · exact absurd hra (by simp)
      · exact absurd h (by simp)
    · exact absurd h (by simp)

theorem preprocess_image_values_witness :
    ∃ a, preprocess_image intOps resizeExact imgW = some a ∧
      a.el 0 0 3 5 =
        intOps.fdiv
          (intOps.fsub (intOps.ofU8 ((croppedImage resizeExact imgW).pix 3 5 0))
            (meanLit intOps 0))
          (stdLit intOps 0) := by
  obtain ⟨a, ha⟩ : ∃ a, preprocess_image intOps resizeExact imgW = some a := ⟨_, rfl⟩
  exact ⟨a, ha,
    preprocess_image_values intOps resizeExact imgW a ha 0 3 5 (by norm_num)
      (by norm_num) (by norm_num)⟩

/-- An abstract filesystem: the set of existing directories, the stored
files, and which paths the operating system will accept a write to. -/
structure FileSys where
  dirs : List String
  files : List (String × WireTensor)
  writeOk : String → Bool

/-- Modelled from the spec: `save_data(tensor, path)` (§4.1): encodes a
Tensor to the wire format and writes it; fails with `Io` on write failure;
does not create missing parent directories.  `parentF` models the
platform's `Path::parent`. -/
def save_data (parentF : String → Option String) (t : Tensor) (p : String)
    (fs : FileSys) : Except OnnxError FileSys :=
  match parentF p with
  | none => .error .Io
  | some par =>
    if par ∈ fs.dirs then
      if fs.writeOk p then
        .ok ⟨fs.dirs, (p, encode t "") :: fs.files, fs.writeOk⟩
      else .error .Io
    else .error .Io

/-- C7: `save_data` fails with `Io` whenever the underlying file write
fails, and it never creates missing parent directories: when the path's
parent directory does not exist the call fails with `Io` instead of
creating it, and on success the set of directories is unchanged. -/
theorem save_data_spec (parentF : String → Option String) (t : Tensor)
    (p : String) (fs : FileSys) :
    (fs.writeOk p = false → save_data parentF t p fs = .error .Io) ∧
      (∀ par, parentF p = some par → par ∉ fs.dirs →
        save_data parentF t p fs = .error .Io) ∧
      (∀ fs', save_data parentF t p fs = .ok fs' → fs'.dirs = fs.dirs) := by
  refine ⟨?_, ?_, ?_⟩
  · intro hw
    unfold save_data
    split
    · rfl
    · split
      · rw [hw]; rfl
      · rfl
  · intro par hpar hnot
    unfold save_data
    rw [hpar]
    exact if_neg hnot
  · intro fs' h
    unfold save_data at h
    split at h
    · exact absurd h (by simp)
    · split at h
      · split at h
        · exact (congrArg FileSys.dirs (Except.ok.inj h)).symm
        · exact absurd h (by simp)
      · exact absurd h (by simp)

/-- A parent-path function used by the witnesses. -/
def parentW : String → Option String := fun _ => some "models"

/-- A filesystem whose every write fails, for the witnesses. -/
def fsFailW : FileSys := ⟨["models"], [], fun _ => false⟩

/-- A filesystem accepting every write, for the witnesses. -/
def fsOkW : FileSys := ⟨["models"], [], fun _ => true⟩

theorem save_data_spec_witness :
    save_data parentW tensW "models/out.pb" fsFailW = .error .Io ∧
      (⟨["models"], [("models/out.pb", encode tensW "")], fun _ => true⟩ :
          FileSys).dirs = fsOkW.dirs :=
  ⟨(save_data_spec parentW tensW "models/out.pb" fsFailW).1 rfl,
    (save_data_spec parentW tensW "models/out.pb" fsOkW).2.2
      ⟨["models"], [("models/out.pb", encode tensW "")], fun _ => true⟩ rfl⟩

/-- The network choices offered by the main menu (`display.rs`). -/
inductive NetSel where
  | alexnet
  | caffenet
  | mnist
  | resnet
  | squeezenet
  | zfnet
  | exitChoice
  deriving DecidableEq

/-- A Yes/No/Back selection at one of the menu prompts. -/
inductive TriSel where
  | yes
  | no
  | back
  deriving DecidableEq

/-- One round of user interaction with `menu` (`display.rs`): the network
selection, the save-data selection, the successive strings submitted at the
save-path prompt (with the default path already substituted when the user
just pressed Enter, as `Input::interact` returns it), and the verbose-mode
selection. -/
structure MenuRound where
  net : NetSel
  saveSel : TriSel
  pathEntries : List String
  verboseSel : TriSel

/-- The observable events of one program execution: assignments to the two
process-wide flags, file loads, the inference run, saving, and display. -/
inductive Event where
  | assignVerbose (b : Bool)
  | assignDomain (b : Bool)
  | loadModelEv (p : String)
  | loadDataEv (p : String)
  | runStart
  | runEnd
  | saveEv (p : String)
  | displayEv
  deriving DecidableEq

/-- Whether an event assigns one of the two process-wide configuration
flags (`VERBOSE` or `DOMAIN_SPECIFIC`). -/
def isAssign : Event → Bool
  | .assignVerbose _ => true
  | .assignDomain _ => true
  | _ => false

/-- How a `menu` invocation ends: `process::exit`, waiting forever on
further input (`blocked`), or returning the selected paths. -/
inductive MenuOutcome where
  | exited
  | blocked
  | returned (r : String × String × String × Option String)
  deriving DecidableEq

/-- The hard-coded model/input/expected-output path triples of `menu`
(`display.rs` lines 135–177), including the ResNet input path quirk that
points into `resnet18-v2-7`. -/
def netPaths : NetSel → String × String × String
  | .alexnet =>
    ("models/bvlcalexnet-12/bvlcalexnet-12.onnx",
      "models/bvlcalexnet-12/test_data_set_0/input_0.pb",
      "models/bvlcalexnet-12/test_data_set_0/output_0.pb")
  | .caffenet =>
    ("models/caffenet-12/caffenet-12.onnx",
      "models/caffenet-12/test_data_set_0/input_0.pb",
      "models/caffenet-12/test_data_set_0/output_0.pb")
  | .mnist =>
    ("models/mnist-8/mnist-8.onnx",
      "models/mnist-8/test_data_set_0/input_0.pb",
      "models/mnist-8/test_data_set_0/output_0.pb")
  | .resnet =>
    ("models/resnet152-v2-7/resnet152-v2-7.onnx",
      "models/resnet18-v2-7/test_data_set_0/input_0.pb",
      "models/resnet152-v2-7/test_data_set_0/output_0.pb")
  | .squeezenet =>
    ("models/squeezenet1.0-12/squeezenet1.0-12.onnx",
      "models/squeezenet1.0-12/test_data_set_0/input_0.pb",
      "models/squeezenet1.0-12/test_data_set_0/output_0.pb")
  | .zfnet =>
    ("models/zfnet512-12/zfnet512-12.onnx",
      "models/zfnet512-12/test_data_set_0/input_0.pb",
      "models/zfnet512-12/test_data_set_0/output_0.pb")
  | .exitChoice => ("", "", "")

/-- Model of `str::trim`, computed on the character list: whitespace stripped from
both ends. -/
def trimModel (s : String) : String :=
  ⟨(((s.data.dropWhile Char.isWhitespace).reverse).dropWhile Char.isWhitespace).reverse⟩

/-- Model of `str::to_uppercase`, computed per character. -/
def toUpperModel (s : String) : String := ⟨s.data.map Char.toUpper⟩

/-- The check `path.ends_with(".pb")` of `menu`. -/
def endsWithPb (s : String) : Bool := ".pb".data.isSuffixOf s.data

/-- The submitted path with the `.pb` extension appended when missing
(`display.rs` lines 93–96). -/
def candPath (e : String) : String := if endsWithPb e then e else e ++ ".pb"

/-- How the save-path prompt loop of `menu` ends. -/
inductive PathRes where
  | gotPath (p : String)
  | goBack
  | starved

/-- The save-path prompt loop of `menu` (`display.rs` lines 81–108): each
submitted string is checked against `BACK` (after trimming and
upper-casing), given a `.pb` extension when missing, and accepted exactly
when the parent directory of the resulting path exists; otherwise the loop
asks again.  An exhausted entry list models a user who never submits an
acceptable path. -/
def pathLoop (parentF : String → Option String) (dirExists : String → Bool) :
    List String → PathRes
  | [] => .starved
  | e :: rest =>
    if toUpperModel (trimModel e) = "BACK" then .goBack
    else
      match parentF (candPath e) with
      | some par =>
        if dirExists par then .gotPath (candPath e)
        else pathLoop parentF dirExists rest
      | none => pathLoop parentF dirExists rest

/-- The events emitted by one completed `menu` round: the `VERBOSE`
assignment, then the `DOMAIN_SPECIFIC` assignment when CNN-Mnist was
selected (`display.rs` lines 130–157). -/
def menuEvents (r : MenuRound) : List Event :=
  [Event.assignVerbose (decide (r.verboseSel = TriSel.yes))] ++
    (if r.net = NetSel.mnist then [Event.assignDomain true] else [])

/-- The tail of one `menu` round after the save path is settled: the
verbose prompt (whose `Back` answer restarts the menu, signalled by
`none`), the flag assignments, and the returned path tuple. -/
def menuFinish (r : MenuRound) (sp : Option String) :
    Option (List Event × MenuOutcome) :=
  if r.verboseSel = TriSel.back then none
  else
    some (menuEvents r,
      .returned ((netPaths r.net).1, (netPaths r.net).2.1, (netPaths r.net).2.2, sp))

/-- The interactive `menu` of `display.rs`, driven by a finite script of
user rounds: selecting Exit terminates the process, any `Back` answer
restarts the menu on the remaining script, and a completed round assigns
the process-wide flags and returns the model, input, expected-output and
optional save paths. -/
def menuModel (parentF : String → Option String) (dirExists : String → Bool) :
    List MenuRound → List Event × MenuOutcome
  | [] => ([], .blocked)
  | r :: rest =>
    if r.net = NetSel.exitChoice then ([], .exited)
    else if r.saveSel = TriSel.back then menuModel parentF dirExists rest
    else if r.saveSel = TriSel.yes then
      match pathLoop parentF dirExists r.pathEntries with
      | .goBack => menuModel parentF dirExists rest
      | .starved => ([], .blocked)
      | .gotPath p =>
        match menuFinish r (some p) with
        | none => menuModel parentF dirExists rest
        | some out => out
    else
      match menuFinish r none with
      | none => menuModel parentF dirExists rest
      | some out => out

theorem endsWithPb_append (s : String) : endsWithPb (s ++ ".pb") = true := by
  have h : ".pb".data <:+ (s ++ ".pb").data := by
    rw [String.data_append]
    exact List.suffix_append s.data ".pb".data
  simpa [endsWithPb] using (List.isSuffixOf_iff_suffix).mpr h

theorem endsWithPb_candPath (e : String) : endsWithPb (candPath e) = true := by
  unfold candPath
  by_cases he : endsWithPb e = true
  · simpa [he] using he
  · simp only [Bool.not_eq_true] at he
    simp only [he, Bool.false_eq_true, if_false]
    exact endsWithPb_append e

theorem pathLoop_gotPath (parentF : String → Option String)
    (dirExists : String → Bool) :
    ∀ (entries : List String) (p : String),
      pathLoop parentF dirExists entries = .gotPath p →
        endsWithPb p = true ∧ ∃ par, parentF p = some par ∧ dirExists par = true := by
  intro entries
  induction entries with
  | nil => intro p h; exact absurd h (by simp [pathLoop])
  | cons e rest ih =>
      intro p h
      unfold pathLoop at h
      split at h
      · exact absurd h (by simp)
      · split at h
        · rename_i par hpar
          split at h
          · rename_i hex
            have hp := PathRes.gotPath.inj h
            subst hp
            exact ⟨endsWithPb_candPath e, par, hpar, hex⟩
          · exact ih p h
        · exact ih p h

/-- C10: whenever `menu` returns a save path `some p`, that path ends with
the `.pb` extension and, at the time of the check, had a parent directory
that existed on the filesystem; a path whose parent directory does not
exist is never returned. -/
theorem menu_save_path (parentF : String → Option String)
    (dirExists : String → Bool) (script : List MenuRound) (tr : List Event)
    (mp ip op p : String)
    (h : menuModel parentF dirExists script = (tr, .returned (mp, ip, op, some p))) :
    endsWithPb p = true ∧ ∃ par, parentF p = some par ∧ dirExists par = true := by
  induction script with
  | nil =>
      exfalso
      simp only [menuModel] at h
      exact absurd (Prod.mk.inj h).2 (by simp)
  | cons r rest ih =>
      unfold menuModel at h
      split at h
      · exact absurd (Prod.mk.inj h).2 (by simp)
      · split at h
        · exact ih h
        · split at h
          · -- saveSel = yes: the three pathLoop outcomes in arm order
            split at h
            · exact ih h
            · exact absurd (Prod.mk.inj h).2 (by simp)
            · rename_i pl hpl
              split at h
              · exact ih h
              · rename_i out hout
                unfold menuFinish at hout
                split at hout
                · exact absurd hout (by simp)
                · have hout' := Option.some.inj hout
                  subst hout'
                  have h2 := (Prod.mk.inj h).2
                  have h3 := MenuOutcome.returned.inj h2
                  have hp : some pl = some p := by
                    simpa using congrArg (fun q => q.2.2.2) h3
                  have hp' := Option.some.inj hp
                  subst hp'
                  exact pathLoop_gotPath parentF dirExists r.pathEntries pl hpl
          · split at h
            · exact ih h
            · rename_i out hout
              exfalso
              unfold menuFinish at hout
              split at hout
              · exact absurd hout (by simp)
              · have hout' := Option.some.inj hout
                subst hout'
                have h2 := (Prod.mk.inj h).2
                have h3 := MenuOutcome.returned.inj h2
                have hp : (none : Option String) = some p := by
                  simpa using congrArg (fun q => q.2.2.2) h3
                exact absurd hp (by simp)

/-- The per-run context of `main` (`main.rs`): the platform path functions,
the parser entry points, the kernel registry, the tensor-to-rows conversion
used by the display layer, and the filesystem state for saving. -/
structure MainCtx (F : Type) where
  parentF : String → Option String
  dirExists : String → Bool
  loadModelF : String → Option Model
  loadDataF : String → Option Tensor
  registry : String → Option Kernel
  toRows : Tensor → Option (List (List F))
  fs : FileSys

/-- How one execution of `main` ends: menu exit, menu starvation, a panic
(a failed `unwrap`), or normal completion carrying the predicted tensor and
its displayed top-5 classification. -/
inductive MainOut (F : Type) where
  | exited
  | blocked
  | panicked
  | finished (predicted : Tensor) (top5 : List (List (Nat × F)))
  deriving DecidableEq

/-- Model of `display_outputs` (`display.rs` lines 234–279): converts the predicted
and expected tensors to numeric rows (panicking when either conversion
fails) and computes the top-5 peak classes of the predicted output for
printing. -/
def displayStep {F : Type} [LinearOrder F] (ctx : MainCtx F)
    (out expected : Tensor) : List Event × MainOut F :=
  match ctx.toRows out with
  | none => ([], .panicked)
  | some rows =>
    match ctx.toRows expected with
    | none => ([], .panicked)
    | some _ => ([Event.displayEv], .finished out (find_top_5_peak_classes rows))

/-- The part of `main` (`main.rs` lines 14–29) that follows the menu: load
the model and the two data files, run the model, optionally save the
prediction, and display; every failure aborts via `unwrap`. -/
def mainAfterMenu {F : Type} [LinearOrder F] (ctx : MainCtx F) :
    MenuOutcome → List Event × MainOut F
  | .exited => ([], .exited)
  | .blocked => ([], .blocked)
  | .returned (mp, ip, op, sp) =>
    match ctx.loadModelF mp with
    | none => ([Event.loadModelEv mp], .panicked)
    | some model =>
      match ctx.loadDataF ip with
      | none => ([Event.loadModelEv mp, Event.loadDataEv ip], .panicked)
      | some input =>
        match ctx.loadDataF op with
        | none =>
          ([Event.loadModelEv mp, Event.loadDataEv ip, Event.loadDataEv op], .panicked)
        | some expected =>
          match run ctx.registry model input with
          | .error _ =>
            ([Event.loadModelEv mp, Event.loadDataEv ip, Event.loadDataEv op,
              Event.runStart], .panicked)
          | .ok out =>
            match sp with
            | some p =>
              match save_data ctx.parentF out p ctx.fs with
              | .error _ =>
                ([Event.loadModelEv mp, Event.loadDataEv ip, Event.loadDataEv op,
                  Event.runStart, Event.runEnd, Event.saveEv p], .panicked)
              | .ok _ =>
                ([Event.loadModelEv mp, Event.loadDataEv ip, Event.loadDataEv op,
                    Event.runStart, Event.runEnd, Event.saveEv p] ++
                  (displayStep ctx out expected).1, (displayStep ctx out expected).2)
            | none =>
              ([Event.loadModelEv mp, Event.loadDataEv ip, Event.loadDataEv op,
                  Event.runStart, Event.runEnd] ++
                (displayStep ctx out expected).1, (displayStep ctx out expected).2)

/-- Model of `main` (`main.rs`): the menu interaction followed by load, run, save
and display, with the concatenated event trace. -/
def mainModel {F : Type} [LinearOrder F] (ctx : MainCtx F)
    (script : List MenuRound) : List Event × MainOut F :=
  ((menuModel ctx.parentF ctx.dirExists script).1 ++
      (mainAfterMenu ctx (menuModel ctx.parentF ctx.dirExists script).2).1,
    (mainAfterMenu ctx (menuModel ctx.parentF ctx.dirExists script).2).2)

theorem menuEvents_assign (r : MenuRound) :
    ∀ e ∈ menuEvents r, isAssign e = true := by
  intro e he
  unfold menuEvents at he
  rcases List.mem_append.mp he with h | h
  · rw [List.mem_singleton.mp h]; rfl
  · split at h
    · rw [List.mem_singleton.mp h]; rfl
    · exact absurd h (List.not_mem_nil e)

theorem menu_events_assign (parentF : String → Option String)
    (dirExists : String → Bool) :
    ∀ (script : List MenuRound) (tr : List Event) (o : MenuOutcome),
      menuModel parentF dirExists script = (tr, o) →
        ∀ e ∈ tr, isAssign e = true := by
  intro script
  induction script with
  | nil =>
      intro tr o h e he
      rw [← (Prod.mk.inj h).1] at he
      exact absurd he (List.not_mem_nil e)
  | cons r rest ih =>
      intro tr o h e he
      unfold menuModel at h
      split at h
      · rw [← (Prod.mk.inj h).1] at he
        exact absurd he (List.not_mem_nil e)
      · split at h
        · exact ih tr o h e he
        · split at h
          · split at h
            · exact ih tr o h e he
            · rw [← (Prod.mk.inj h).1] at he
              exact absurd he (List.not_mem_nil e)
            · split at h
              · exact ih tr o h e he
              · rename_i out hout
                unfold menuFinish at hout
                split at hout
                · exact absurd hout (by simp)
                · have hout' := Option.some.inj hout
                  subst hout'
                  rw [← (Prod.mk.inj h).1] at he
                  exact menuEvents_assign r e he
          · split at h
            · exact ih tr o h e he
            · rename_i out hout
              unfold menuFinish at hout
              split at hout
              · exact absurd hout (by simp)
              · have hout' := Option.some.inj hout
                subst hout'
                rw [← (Prod.mk.inj h).1] at he
                exact menuEvents_assign r e he

theorem displayStep_no_assign {F : Type} [LinearOrder F] (ctx : MainCtx F)
    (out expected : Tensor) :
    ∀ e ∈ (displayStep ctx out expected).1, isAssign e = false := by
  intro e he
  unfold displayStep at he
  split at he
  · exact absurd he (List.not_mem_nil e)
  · split at he
    · exact absurd he (List.not_mem_nil e)
    · rw [List.mem_singleton.mp he]; rfl

theorem mainAfterMenu_no_assign {F : Type} [LinearOrder F] (ctx : MainCtx F) :
    ∀ (mo : MenuOutcome), ∀ e ∈ (mainAfterMenu ctx mo).1, isAssign e = false := by
  intro mo
  cases mo with
  | exited => intro e he; exact absurd he (List.not_mem_nil e)
  | blocked => intro e he; exact absurd he (List.not_mem_nil e)
  | returned r =>
      obtain ⟨mp, ip, op, sp⟩ := r
      intro e he
      simp only [mainAfterMenu] at he
      split at he
      · fin_cases he <;> rfl
      · split at he
        · fin_cases he <;> rfl
        · split at he
          · fin_cases he <;> rfl
          · split at he
            · fin_cases he <;> rfl
            · split at he
              · split at he
                · fin_cases he <;> rfl
                · rcases List.mem_append.mp he with h1 | h1
                  · fin_cases h1 <;> rfl
                  · exact displayStep_no_assign ctx _ _ e h1
              · rcases List.mem_append.mp he with h1 | h1
                · fin_cases h1 <;> rfl
                · exact displayStep_no_assign ctx _ _ e h1

/-- C3: in every program execution, assignments to the two process-wide
configuration flags (`VERBOSE` and `DOMAIN_SPECIFIC`) occur only before the
first call to `run`: every flag-assignment event in the trace strictly
precedes every `runStart` event, so neither flag is mutated while a run is
executing. -/
theorem flags_assigned_before_run {F : Type} [LinearOrder F] (ctx : MainCtx F)
    (script : List MenuRound) (tr : List Event) (o : MainOut F)
    (h : mainModel ctx script = (tr, o)) (i j : Nat) (e : Event)
    (hi : tr[i]? = some e) (he : isAssign e = true)
    (hj : tr[j]? = some Event.runStart) : i < j := by
  have h1 := (Prod.mk.inj h).1
  have hassign : ∀ x ∈ (menuModel ctx.parentF ctx.dirExists script).1,
      isAssign x = true :=
    menu_events_assign ctx.parentF ctx.dirExists script
      (menuModel ctx.parentF ctx.dirExists script).1
      (menuModel ctx.parentF ctx.dirExists script).2 rfl
  have hnosuf := mainAfterMenu_no_assign ctx (menuModel ctx.parentF ctx.dirExists script).2
  have hi' : i < (menuModel ctx.parentF ctx.dirExists script).1.length := by
    by_contra hge
    push_neg at hge
    rw [← h1, List.getElem?_append_right hge] at hi
    have hc := hnosuf e (List.getElem?_mem hi)
    rw [he] at hc
    exact absurd hc (by simp)
  have hj' : (menuModel ctx.parentF ctx.dirExists script).1.length ≤ j := by
    by_contra hlt
    push_neg at hlt
    rw [← h1, List.getElem?_append_left hlt] at hj
    have hc := hassign Event.runStart (List.getElem?_mem hj)
    exact absurd hc (by simp [isAssign])
  omega

/-- C6: the data flow of `main` follows the specified pipeline order: the
model comes from `load_model`, the input from `load_data`, the output is
`run(model, input)`, and the top-k classification helper is applied to that
output only afterwards (the trace places the run strictly between the loads
and the display) and only for display. -/
theorem main_pipeline {F : Type} [LinearOrder F] (ctx : MainCtx F)
    (script : List MenuRound) (tr : List Event) (out : Tensor)
    (top5 : List (List (Nat × F)))
    (h : mainModel ctx script = (tr, .finished out top5)) :
    ∃ trM mp ip op sp model input mid rows,
      menuModel ctx.parentF ctx.dirExists script = (trM, .returned (mp, ip, op, sp)) ∧
      ctx.loadModelF mp = some model ∧
      ctx.loadDataF ip = some input ∧
      run ctx.registry model input = .ok out ∧
      ctx.toRows out = some rows ∧
      top5 = find_top_5_peak_classes rows ∧
      tr = trM ++ [Event.loadModelEv mp, Event.loadDataEv ip, Event.loadDataEv op,
        Event.runStart, Event.runEnd] ++ mid ++ [Event.displayEv] := by
  have h1 := (Prod.mk.inj h).1
  have h2 := (Prod.mk.inj h).2
  rcases hmo : (menuModel ctx.parentF ctx.dirExists script).2 with _ | _ | r
  · rw [hmo] at h2; exact absurd h2 (by simp [mainAfterMenu])
  · rw [hmo] at h2; exact absurd h2 (by simp [mainAfterMenu])
  · obtain ⟨mp, ip, op, sp⟩ := r
    rw [hmo] at h1 h2
    simp only [mainAfterMenu] at h1 h2
    rcases hmodel : ctx.loadModelF mp with _ | model
    · rw [hmodel] at h2; simp at h2
    · rw [hmodel] at h1 h2
      dsimp only [] at h1 h2
      rcases hinput : ctx.loadDataF ip with _ | input
      · rw [hinput] at h2; simp at h2
      · rw [hinput] at h1 h2
        dsimp only [] at h1 h2
        rcases hexp : ctx.loadDataF op with _ | expected
        · rw [hexp] at h2; simp at h2
        · rw [hexp] at h1 h2
          dsimp only [] at h1 h2
          rcases hrun : run ctx.registry model input with e0 | out0
          · rw [hrun] at h2; simp at h2
          · rw [hrun] at h1 h2
            dsimp only [] at h1 h2
            rcases sp with _ | p
            · dsimp only [] at h1 h2
              unfold displayStep at h1 h2
              rcases hrows : ctx.toRows out0 with _ | rows
              · rw [hrows] at h2; simp at h2
              · rw [hrows] at h1 h2
                dsimp only [] at h1 h2
                rcases hexp2 : ctx.toRows expected with _ | erows
                · rw [hexp2] at h2; simp at h2
                · rw [hexp2] at h1 h2
                  dsimp only [] at h1 h2
                  have hfin := MainOut.finished.inj h2
                  refine ⟨(menuModel ctx.parentF ctx.dirExists script).1, mp, ip, op,
                    none, model, input, [], rows, ?_, hmodel, hinput,
                    hfin.1 ▸ hrun, hfin.1 ▸ hrows, hfin.2.symm, ?_⟩
                  · rw [← hmo]
                  · rw [← h1]
                    simp
            · dsimp only [] at h1 h2
              rcases hsave : save_data ctx.parentF out0 p ctx.fs with e1 | fs1
              · rw [hsave] at h2; simp at h2
              · rw [hsave] at h1 h2
                dsimp only [] at h1 h2
                unfold displayStep at h1 h2
                rcases hrows : ctx.toRows out0 with _ | rows
                · rw [hrows] at h2; simp at h2
                · rw [hrows] at h1 h2
                  dsimp only [] at h1 h2
                  rcases hexp2 : ctx.toRows expected with _ | erows
                  · rw [hexp2] at h2; simp at h2
                  · rw [hexp2] at h1 h2
                    dsimp only [] at h1 h2
                    have hfin := MainOut.finished.inj h2
                    refine ⟨(menuModel ctx.parentF ctx.dirExists script).1, mp, ip, op,
                      some p, model, input, [Event.saveEv p], rows, ?_, hmodel, hinput,
                      hfin.1 ▸ hrun, hfin.1 ▸ hrows, hfin.2.symm, ?_⟩
                    · rw [← hmo]
                    · rw [← h1]
                      simp

/-- A single-node identity model that runs successfully, for the
end-to-end witnesses. -/
def modelRunW : Model := ⟨[⟨"Identity", ["in"], ["out"], []⟩], [], "in", "out"⟩

/-- A directory-existence test accepting every directory, for witnesses. -/
def dirExistsW : String → Bool := fun _ => true

/-- A tensor-to-rows conversion used by the witnesses. -/
def toRowsW : Tensor → Option (List (List Int)) := fun _ => some [[1]]

/-- The concrete `main` context of the witnesses. -/
def ctxW : MainCtx Int :=
  ⟨parentW, dirExistsW, fun _ => some modelRunW, fun _ => some tensW, regW,
    toRowsW, fsOkW⟩

/-- A script selecting AlexNet, not saving, verbose on. -/
def scriptW : List MenuRound := [⟨NetSel.alexnet, TriSel.no, [], TriSel.yes⟩]

/-- The event trace of `main` under `scriptW`. -/
def trW : List Event :=
  [Event.assignVerbose true,
    Event.loadModelEv "models/bvlcalexnet-12/bvlcalexnet-12.onnx",
    Event.loadDataEv "models/bvlcalexnet-12/test_data_set_0/input_0.pb",
    Event.loadDataEv "models/bvlcalexnet-12/test_data_set_0/output_0.pb",
    Event.runStart, Event.runEnd, Event.displayEv]

theorem flags_assigned_before_run_witness :
    mainModel ctxW scriptW = (trW, MainOut.finished tensW [[(0, 1)]]) ∧
      (0 : Nat) < 4 :=
  ⟨rfl,
    flags_assigned_before_run ctxW scriptW trW (MainOut.finished tensW [[(0, 1)]])
      rfl 0 4 (Event.assignVerbose true) rfl rfl rfl⟩

theorem main_pipeline_witness :
    ∃ trM mp ip op sp model input mid rows,
      menuModel ctxW.parentF ctxW.dirExists scriptW =
        (trM, .returned (mp, ip, op, sp)) ∧
      ctxW.loadModelF mp = some model ∧
      ctxW.loadDataF ip = some input ∧
      run ctxW.registry model input = .ok tensW ∧
      ctxW.toRows tensW = some rows ∧
      [[((0 : Nat), (1 : Int))]] = find_top_5_peak_classes rows ∧
      trW = trM ++ [Event.loadModelEv mp, Event.loadDataEv ip, Event.loadDataEv op,
        Event.runStart, Event.runEnd] ++ mid ++ [Event.displayEv] :=
  main_pipeline ctxW scriptW trW tensW [[(0, 1)]] rfl

/-- A script selecting AlexNet and saving to a path typed as
`models/out`. -/
def scriptSaveW : List MenuRound :=
  [⟨NetSel.alexnet, TriSel.yes, ["models/out"], TriSel.yes⟩]

theorem menu_save_path_witness :
    endsWithPb "models/out.pb" = true ∧
      ∃ par, parentW "models/out.pb" = some par ∧ dirExistsW par = true :=
  menu_save_path parentW dirExistsW scriptSaveW [Event.assignVerbose true]
    "models/bvlcalexnet-12/bvlcalexnet-12.onnx"
    "models/bvlcalexnet-12/test_data_set_0/input_0.pb"
    "models/bvlcalexnet-12/test_data_set_0/output_0.pb"
    "models/out.pb" rfl

end Onnx
